import Mathlib

/-!
Verification of the minimax alpha-beta search in `baby_driver.py`.

The chess library (`python-chess`) is an external collaborator; following the
spec it is modelled as an oracle (`Game`) giving, for each board state, the
(already shuffled) legal-move list, the result string, the side to move and the
game-over flag.  A board is identified with its move stack (the history of
pushed moves); `board.push` appends, `board.pop` drops the last element and
`board.peek` reads it (raising on an empty stack, modelled by `Option`).
Scores are python floats used only through `max`, `min`, `<=`, `==`, unary
negation of finite evaluator outputs, and the constants `float("inf")` /
`float("-inf")`; they are modelled by `WithBot (WithTop Int)`.

`minimax` threads the mutable board explicitly: it returns the pair
`(result, board state after the call)`, where `result = none` models an
uncaught exception (the only one reachable is `IndexError` from `peek()` on an
empty stack).  Python-level nondeterminism (`random.shuffle`) is resolved by
the `Game.moves` oracle: quantifying over all `Game`s quantifies over all move
orderings.
-/

namespace BabyDriver

/-- A chess move, opaque and comparable (`chess.Move`). -/
abbrev Move := Nat

/-- A board is its move stack: the list of moves pushed since the start state. -/
abbrev Board := List Move

/-- Outcome of `board.result()`: the strings "1-0", "0-1", "1/2-1/2", "*". -/
inductive GameResult where
  | whiteWins
  | blackWins
  | draw
  | ongoing
deriving DecidableEq

/-- The external chess oracle: legal moves in the (shuffled) order the search
will iterate them, the result string, the side to move, and game-over. -/
structure Game where
  moves : Board → List Move
  result : Board → GameResult
  turn : Board → Bool
  gameOver : Board → Bool

/-- Python float scores with the two infinities. -/
abbrev Score := WithBot (WithTop Int)

/-- Embed a finite evaluator output into `Score`. -/
def Score.ofInt (n : Int) : Score := ((n : WithTop Int) : WithBot (WithTop Int))

/-- An evaluation function `eval_func : board -> real`. -/
abbrev Evaluator := Board → Int

/-- The move component of minimax's returned 2-tuple.  Python is untyped: the
code returns either a `chess.Move` value, or the *uncalled* bound method
`board.peek` (line 30 of `baby_driver.py`), or the sentinel `None`. -/
inductive MVal where
  | mv (m : Move)
  | peekBound
  | pynone
deriving DecidableEq

/-- The maximizing-player loop of `minimax` (lines 48-63 of `baby_driver.py`).
`child` is the depth-decremented recursive call; the board is threaded
explicitly, and `none` in the first component models a raised exception. -/
def loopMax (child : Score → Score → Bool → Board → Option (Score × MVal) × Board) :
    List Move → Score → Score → Score → MVal → Board → Option (Score × MVal) × Board
  | [], _, _, best, bestMv, b => (some (best, bestMv), b)
  | x :: rest, alpha, beta, best, bestMv, b =>
    match child alpha beta false (b ++ [x]) with
    | (none, b1) => (none, b1)
    | (some pair, b1) =>
      if pair.1 = max best pair.1 then
        match b1.getLast? with
        | none => (none, b1)
        | some m =>
          if beta ≤ max alpha (max best pair.1) then
            (some (max best pair.1, MVal.mv m), b1.dropLast)
          else
            loopMax child rest (max alpha (max best pair.1)) beta (max best pair.1)
              (MVal.mv m) b1.dropLast
      else
        if beta ≤ max alpha (max best pair.1) then
          (some (max best pair.1, bestMv), b1.dropLast)
        else
          loopMax child rest (max alpha (max best pair.1)) beta (max best pair.1)
            bestMv b1.dropLast

/-- The minimizing-player loop of `minimax` (lines 75-90 of `baby_driver.py`). -/
def loopMin (child : Score → Score → Bool → Board → Option (Score × MVal) × Board) :
    List Move → Score → Score → Score → MVal → Board → Option (Score × MVal) × Board
  | [], _, _, best, bestMv, b => (some (best, bestMv), b)
  | x :: rest, alpha, beta, best, bestMv, b =>
    match child alpha beta true (b ++ [x]) with
    | (none, b1) => (none, b1)
    | (some pair, b1) =>
      if pair.1 = min best pair.1 then
        match b1.getLast? with
        | none => (none, b1)
        | some m =>
          if min beta (min best pair.1) ≤ alpha then
            (some (min best pair.1, MVal.mv m), b1.dropLast)
          else
            loopMin child rest alpha (min beta (min best pair.1)) (min best pair.1)
              (MVal.mv m) b1.dropLast
      else
        if min beta (min best pair.1) ≤ alpha then
          (some (min best pair.1, bestMv), b1.dropLast)
        else
          loopMin child rest alpha (min beta (min best pair.1)) (min best pair.1)
            bestMv b1.dropLast

/-- `minimax(depth, board, alpha, beta, is_maximizing, eval_func)` from
`baby_driver.py`, with the mutable board threaded explicitly.  The second
component is the board state when the call exits (normally or by exception);
`none` in the first component is a raised `IndexError` from `board.peek()`. -/
def minimax (g : Game) (e : Evaluator) :
    Nat → Score → Score → Bool → Board → Option (Score × MVal) × Board
  | 0, _, _, _, b =>
    match g.result b with
    | GameResult.whiteWins =>
      match b.getLast? with
      | some m => (some ((⊤ : Score), MVal.mv m), b)
      | none => (none, b)
    | GameResult.blackWins => (some ((⊥ : Score), MVal.peekBound), b)
    | _ =>
      match b.getLast? with
      | some m => (some (Score.ofInt (-(e b)), MVal.mv m), b)
      | none => (none, b)
  | d + 1, alpha, beta, isMax, b =>
    if isMax then
      loopMax (minimax g e d) (g.moves b) alpha beta (⊥ : Score) MVal.pynone b
    else
      loopMin (minimax g e d) (g.moves b) alpha beta (⊤ : Score) MVal.pynone b

theorem minimax_succ_true (g : Game) (e : Evaluator) (d : Nat)
    (alpha beta : Score) (b : Board) :
    minimax g e (d + 1) alpha beta true b
      = loopMax (minimax g e d) (g.moves b) alpha beta (⊥ : Score) MVal.pynone b := rfl

theorem minimax_succ_false (g : Game) (e : Evaluator) (d : Nat)
    (alpha beta : Score) (b : Board) :
    minimax g e (d + 1) alpha beta false b
      = loopMin (minimax g e d) (g.moves b) alpha beta (⊤ : Score) MVal.pynone b := rfl

/-- Modelled from the spec: the value of an exhaustive minimax without
pruning ("the score returned by an exhaustive minimax without pruning"),
with the same base case as the code: `+inf` / `-inf` for a decided game,
`-evaluator(position)` otherwise. -/
def exhaustiveScore (g : Game) (e : Evaluator) : Nat → Bool → Board → Score
  | 0, _, b =>
    match g.result b with
    | GameResult.whiteWins => (⊤ : Score)
    | GameResult.blackWins => (⊥ : Score)
    | _ => Score.ofInt (-(e b))
  | d + 1, true, b =>
    (g.moves b).foldl
      (fun acc x => max acc (exhaustiveScore g e d false (b ++ [x]))) (⊥ : Score)
  | d + 1, false, b =>
    (g.moves b).foldl
      (fun acc x => min acc (exhaustiveScore g e d true (b ++ [x]))) (⊤ : Score)

/-- Score-level mirror of `loopMax`: the same alpha-beta recursion with the
board bookkeeping and move component erased. -/
def abLoopMax (child : Score → Score → Bool → Board → Score) (b : Board) :
    List Move → Score → Score → Score → Score
  | [], _, _, best => best
  | x :: rest, alpha, beta, best =>
    let c := child alpha beta false (b ++ [x])
    if beta ≤ max alpha (max best c) then max best c
    else abLoopMax child b rest (max alpha (max best c)) beta (max best c)

/-- Score-level mirror of `loopMin`. -/
def abLoopMin (child : Score → Score → Bool → Board → Score) (b : Board) :
    List Move → Score → Score → Score → Score
  | [], _, _, best => best
  | x :: rest, alpha, beta, best =>
    let c := child alpha beta true (b ++ [x])
    if min beta (min best c) ≤ alpha then min best c
    else abLoopMin child b rest alpha (min beta (min best c)) (min best c)

/-- Score-level mirror of `minimax`: the score it computes, ignoring the move
component, the board bookkeeping and the exception paths. -/
def abScore (g : Game) (e : Evaluator) : Nat → Score → Score → Bool → Board → Score
  | 0, _, _, _, b =>
    match g.result b with
    | GameResult.whiteWins => (⊤ : Score)
    | GameResult.blackWins => (⊥ : Score)
    | _ => Score.ofInt (-(e b))
  | d + 1, alpha, beta, true, b => abLoopMax (abScore g e d) b (g.moves b) alpha beta (⊥ : Score)
  | d + 1, alpha, beta, false, b => abLoopMin (abScore g e d) b (g.moves b) alpha beta (⊤ : Score)

/-- One iteration of the `play_game` loop (lines 105-117 of `baby_driver.py`):
pick the side to move, run `minimax` with that side's root seeding, and push
the returned move.  `none` models a raised exception (pushing `None` or a
bound method, or an exception escaping `minimax`). -/
def play_turn (g : Game) (we : Evaluator) (wd : Nat) (be : Evaluator) (bd : Nat)
    (b : Board) : Option Board :=
  if g.turn b then
    match minimax g we wd (⊤ : Score) (⊥ : Score) true b with
    | (some pair, b1) =>
      match pair.2 with
      | MVal.mv m => some (b1 ++ [m])
      | _ => none
    | (none, _) => none
  else
    match minimax g be bd (⊥ : Score) (⊤ : Score) false b with
    | (some pair, b1) =>
      match pair.2 with
      | MVal.mv m => some (b1 ++ [m])
      | _ => none
    | (none, _) => none

/-- The `while not board.is_game_over()` loop of `play_game`, with fuel to
bound the number of iterations (`none` = fuel exhausted or exception). -/
def play_game_loop (g : Game) (we : Evaluator) (wd : Nat) (be : Evaluator) (bd : Nat) :
    Nat → Board → Option GameResult
  | 0, _ => none
  | fuel + 1, b =>
    if g.gameOver b then some (g.result b)
    else
      match play_turn g we wd be bd b with
      | some b2 => play_game_loop g we wd be bd fuel b2
      | none => none

/-- `play_game(white_eval, white_depth, black_eval, black_depth)`: start from
the initial position (empty move stack) and run the loop. -/
def play_game (g : Game) (we : Evaluator) (wd : Nat) (be : Evaluator) (bd : Nat)
    (fuel : Nat) : Option GameResult :=
  play_game_loop g we wd be bd fuel []

/-! ### Board restoration and definedness -/

theorem loopMax_restore_some
    (child : Score → Score → Bool → Board → Option (Score × MVal) × Board)
    (Hr : ∀ alpha beta r b, (child alpha beta r b).2 = b)
    (Hs : ∀ alpha beta r b, b ≠ [] → (child alpha beta r b).1.isSome) :
    ∀ (ms : List Move) (alpha beta best : Score) (bestMv : MVal) (b : Board),
      (loopMax child ms alpha beta best bestMv b).2 = b ∧
      (loopMax child ms alpha beta best bestMv b).1.isSome := by
  intro ms
  induction ms with
  | nil => intro alpha beta best bestMv b; simp [loopMax]
  | cons x rest ih =>
    intro alpha beta best bestMv b
    have hs := Hs alpha beta false (b ++ [x]) (by simp)
    have hr := Hr alpha beta false (b ++ [x])
    obtain ⟨pair, hp⟩ := Option.isSome_iff_exists.mp hs
    have hcall : child alpha beta false (b ++ [x]) = (some pair, b ++ [x]) := by
      rw [Prod.ext_iff]; exact ⟨hp, hr⟩
    have hlast : (b ++ [x]).getLast? = some x := List.getLast?_concat _
    have hdrop : (b ++ [x]).dropLast = b := List.dropLast_concat
    simp only [loopMax, hcall]
    by_cases h1 : pair.1 = max best pair.1
    · simp only [if_pos h1, hlast, hdrop]
      by_cases h2 : beta ≤ max alpha (max best pair.1)
      · simp [h2]
      · simp only [if_neg h2]; exact ih _ _ _ _ _
    · simp only [if_neg h1, hdrop]
      by_cases h2 : beta ≤ max alpha (max best pair.1)
      · simp [h2]
      · simp only [if_neg h2]; exact ih _ _ _ _ _

theorem loopMin_restore_some
    (child : Score → Score → Bool → Board → Option (Score × MVal) × Board)
    (Hr : ∀ alpha beta r b, (child alpha beta r b).2 = b)
    (Hs : ∀ alpha beta r b, b ≠ [] → (child alpha beta r b).1.isSome) :
    ∀ (ms : List Move) (alpha beta best : Score) (bestMv : MVal) (b : Board),
      (loopMin child ms alpha beta best bestMv b).2 = b ∧
      (loopMin child ms alpha beta best bestMv b).1.isSome := by
  intro ms
  induction ms with
  | nil => intro alpha beta best bestMv b; simp [loopMin]
  | cons x rest ih =>
    intro alpha beta best bestMv b
    have hs := Hs alpha beta true (b ++ [x]) (by simp)
    have hr := Hr alpha beta true (b ++ [x])
    obtain ⟨pair, hp⟩ := Option.isSome_iff_exists.mp hs
    have hcall : child alpha beta true (b ++ [x]) = (some pair, b ++ [x]) := by
      rw [Prod.ext_iff]; exact ⟨hp, hr⟩
    have hlast : (b ++ [x]).getLast? = some x := List.getLast?_concat _
    have hdrop : (b ++ [x]).dropLast = b := List.dropLast_concat
    simp only [loopMin, hcall]
    by_cases h1 : pair.1 = min best pair.1
    · simp only [if_pos h1, hlast, hdrop]
      by_cases h2 : min beta (min best pair.1) ≤ alpha
      · simp [h2]
      · simp only [if_neg h2]; exact ih _ _ _ _ _
    · simp only [if_neg h1, hdrop]
      by_cases h2 : min beta (min best pair.1) ≤ alpha
      · simp [h2]
      · simp only [if_neg h2]; exact ih _ _ _ _ _

/-- Every call to `minimax` restores the board, and raises only in the
depth-0, empty-stack case. -/
theorem minimax_restore_some (g : Game) (e : Evaluator) :
    ∀ (d : Nat) (alpha beta : Score) (r : Bool) (b : Board),
      (minimax g e d alpha beta r b).2 = b ∧
      ((0 < d ∨ b ≠ []) → (minimax g e d alpha beta r b).1.isSome) := by
  intro d
  induction d with
  | zero =>
    intro alpha beta r b
    constructor
    · simp only [minimax]
      rcases hres : g.result b with _ | _ | _ | _ <;> simp <;>
        rcases hl : b.getLast? with _ | m <;> simp
    · rintro (h | h)
      · omega
      · obtain ⟨m, hm⟩ := Option.isSome_iff_exists.mp
          ((List.getLast?_isSome (l := b)).mpr h)
        simp only [minimax]
        rcases hres : g.result b with _ | _ | _ | _ <;> simp [hm]
  | succ d ih =>
    intro alpha beta r b
    have Hr : ∀ alpha beta r b, ((minimax g e d) alpha beta r b).2 = b :=
      fun alpha beta r b => (ih alpha beta r b).1
    have Hs : ∀ alpha beta r b, b ≠ [] → ((minimax g e d) alpha beta r b).1.isSome :=
      fun alpha beta r b hb => (ih alpha beta r b).2 (Or.inr hb)
    rcases r with _ | _
    · simpa only [minimax, if_neg Bool.false_ne_true, true_implies, or_true,
        ne_eq] using
        ⟨(loopMin_restore_some _ Hr Hs (g.moves b) alpha beta _ _ b).1,
         fun _ => (loopMin_restore_some _ Hr Hs (g.moves b) alpha beta _ _ b).2⟩
    · simpa only [minimax, if_pos rfl] using
        ⟨(loopMax_restore_some _ Hr Hs (g.moves b) alpha beta _ _ b).1,
         fun _ => (loopMax_restore_some _ Hr Hs (g.moves b) alpha beta _ _ b).2⟩

theorem minimax_restore (g : Game) (e : Evaluator) (d : Nat) (alpha beta : Score)
    (r : Bool) (b : Board) : (minimax g e d alpha beta r b).2 = b :=
  (minimax_restore_some g e d alpha beta r b).1

theorem minimax_isSome (g : Game) (e : Evaluator) (d : Nat) (alpha beta : Score)
    (r : Bool) (b : Board) (h : 0 < d ∨ b ≠ []) :
    (minimax g e d alpha beta r b).1.isSome :=
  (minimax_restore_some g e d alpha beta r b).2 h

/-! ### The score returned by `minimax` is `abScore` -/

theorem loopMax_score
    (child : Score → Score → Bool → Board → Option (Score × MVal) × Board)
    (childS : Score → Score → Bool → Board → Score)
    (Hr : ∀ alpha beta r b, (child alpha beta r b).2 = b)
    (Hs : ∀ alpha beta r b, b ≠ [] → (child alpha beta r b).1.isSome)
    (Hc : ∀ alpha beta r b pair, (child alpha beta r b).1 = some pair →
      pair.1 = childS alpha beta r b) :
    ∀ (ms : List Move) (alpha beta best : Score) (bestMv : MVal) (b : Board)
      (pair : Score × MVal),
      (loopMax child ms alpha beta best bestMv b).1 = some pair →
      pair.1 = abLoopMax childS b ms alpha beta best := by
  intro ms
  induction ms with
  | nil =>
    intro alpha beta best bestMv b pair h
    simp only [loopMax, Option.some.injEq] at h
    simp [abLoopMax, ← h]
  | cons x rest ih =>
    intro alpha beta best bestMv b pair h
    have hs := Hs alpha beta false (b ++ [x]) (by simp)
    obtain ⟨cpair, hp⟩ := Option.isSome_iff_exists.mp hs
    have hcall : child alpha beta false (b ++ [x]) = (some cpair, b ++ [x]) := by
      rw [Prod.ext_iff]; exact ⟨hp, Hr alpha beta false (b ++ [x])⟩
    have hc : cpair.1 = childS alpha beta false (b ++ [x]) := Hc _ _ _ _ _ hp
    have hlast : (b ++ [x]).getLast? = some x := List.getLast?_concat _
    have hdrop : (b ++ [x]).dropLast = b := List.dropLast_concat
    simp only [loopMax, hcall, hlast, hdrop] at h
    simp only [abLoopMax, ← hc]
    by_cases h1 : cpair.1 = max best cpair.1
    · rw [if_pos h1] at h
      by_cases h2 : beta ≤ max alpha (max best cpair.1)
      · rw [if_pos h2] at h
        rw [if_pos h2]
        simp only [Option.some.injEq] at h
        simp [← h]
      · rw [if_neg h2] at h
        rw [if_neg h2]
        exact ih _ _ _ _ _ _ h
    · rw [if_neg h1] at h
      by_cases h2 : beta ≤ max alpha (max best cpair.1)
      · rw [if_pos h2] at h
        rw [if_pos h2]
        simp only [Option.some.injEq] at h
        simp [← h]
      · rw [if_neg h2] at h
        rw [if_neg h2]
        exact ih _ _ _ _ _ _ h

theorem loopMin_score
    (child : Score → Score → Bool → Board → Option (Score × MVal) × Board)
    (childS : Score → Score → Bool → Board → Score)
    (Hr : ∀ alpha beta r b, (child alpha beta r b).2 = b)
    (Hs : ∀ alpha beta r b, b ≠ [] → (child alpha beta r b).1.isSome)
    (Hc : ∀ alpha beta r b pair, (child alpha beta r b).1 = some pair →
      pair.1 = childS alpha beta r b) :
    ∀ (ms : List Move) (alpha beta best : Score) (bestMv : MVal) (b : Board)
      (pair : Score × MVal),
      (loopMin child ms alpha beta best bestMv b).1 = some pair →
      pair.1 = abLoopMin childS b ms alpha beta best := by
  intro ms
  induction ms with
  | nil =>
    intro alpha beta best bestMv b pair h
    simp only [loopMin, Option.some.injEq] at h
    simp [abLoopMin, ← h]
  | cons x rest ih =>
    intro alpha beta best bestMv b pair h
    have hs := Hs alpha beta true (b ++ [x]) (by simp)
    obtain ⟨cpair, hp⟩ := Option.isSome_iff_exists.mp hs
    have hcall : child alpha beta true (b ++ [x]) = (some cpair, b ++ [x]) := by
      rw [Prod.ext_iff]; exact ⟨hp, Hr alpha beta true (b ++ [x])⟩
    have hc : cpair.1 = childS alpha beta true (b ++ [x]) := Hc _ _ _ _ _ hp
    have hlast : (b ++ [x]).getLast? = some x := List.getLast?_concat _
    have hdrop : (b ++ [x]).dropLast = b := List.dropLast_concat
    simp only [loopMin, hcall, hlast, hdrop] at h
    simp only [abLoopMin, ← hc]
    by_cases h1 : cpair.1 = min best cpair.1
    · rw [if_pos h1] at h
      by_cases h2 : min beta (min best cpair.1) ≤ alpha
      · rw [if_pos h2] at h
        rw [if_pos h2]
        simp only [Option.some.injEq] at h
        simp [← h]
      · rw [if_neg h2] at h
        rw [if_neg h2]
        exact ih _ _ _ _ _ _ h
    · rw [if_neg h1] at h
      by_cases h2 : min beta (min best cpair.1) ≤ alpha
      · rw [if_pos h2] at h
        rw [if_pos h2]
        simp only [Option.some.injEq] at h
        simp [← h]
      · rw [if_neg h2] at h
        rw [if_neg h2]
        exact ih _ _ _ _ _ _ h

/-- Whenever `minimax` returns normally, the score it returns is the
score-level mirror `abScore`. -/
theorem minimax_score (g : Game) (e : Evaluator) :
    ∀ (d : Nat) (alpha beta : Score) (r : Bool) (b : Board) (pair : Score × MVal),
      (minimax g e d alpha beta r b).1 = some pair →
      pair.1 = abScore g e d alpha beta r b := by
  intro d
  induction d with
  | zero =>
    intro alpha beta r b pair h
    simp only [minimax] at h
    simp only [abScore]
    rcases hres : g.result b with _ | _ | _ | _ <;> rw [hres] at h <;>
      [skip; (simp only [Option.some.injEq] at h; simp [← h]); skip; skip] <;>
      rcases hl : b.getLast? with _ | m <;> rw [hl] at h <;>
      simp only [Option.some.injEq, reduceCtorEq] at h <;> simp [← h]
  | succ d ih =>
    intro alpha beta r b pair h
    have Hr : ∀ alpha beta r b, ((minimax g e d) alpha beta r b).2 = b :=
      fun alpha beta r b => minimax_restore g e d alpha beta r b
    have Hs : ∀ alpha beta r b, b ≠ [] → ((minimax g e d) alpha beta r b).1.isSome :=
      fun alpha beta r b hb => minimax_isSome g e d alpha beta r b (Or.inr hb)
    rcases r with _ | _
    · simp only [minimax, if_neg Bool.false_ne_true] at h
      simp only [abScore]
      exact loopMin_score _ _ Hr Hs ih _ _ _ _ _ _ _ h
    · simp only [minimax, if_pos rfl] at h
      simp only [abScore]
      exact loopMax_score _ _ Hr Hs ih _ _ _ _ _ _ _ h

/-! ### Alpha-beta value correctness (fail-soft sandwich bounds) -/

theorem foldl_max_init (w : Move → Score) :
    ∀ (ms : List Move) (best : Score),
      ms.foldl (fun a x => max a (w x)) best
        = max best (ms.foldl (fun a x => max a (w x)) (⊥ : Score)) := by
  intro ms
  induction ms with
  | nil => intro best; simp
  | cons x rest ih =>
    intro best
    simp only [List.foldl_cons]
    rw [ih (max best (w x)), ih (max (⊥ : Score) (w x)),
      max_eq_right (bot_le : (⊥ : Score) ≤ w x), max_assoc]

theorem foldl_min_init (w : Move → Score) :
    ∀ (ms : List Move) (best : Score),
      ms.foldl (fun a x => min a (w x)) best
        = min best (ms.foldl (fun a x => min a (w x)) (⊤ : Score)) := by
  intro ms
  induction ms with
  | nil => intro best; simp
  | cons x rest ih =>
    intro best
    simp only [List.foldl_cons]
    rw [ih (min best (w x)), ih (min (⊤ : Score) (w x)),
      min_eq_right (le_top : w x ≤ (⊤ : Score)), min_assoc]

theorem abLoopMax_bounds (childS : Score → Score → Bool → Board → Score)
    (w : Move → Score) (b : Board)
    (Hc : ∀ (alpha beta : Score) (x : Move), alpha < beta →
      min beta (w x) ≤ childS alpha beta false (b ++ [x]) ∧
      childS alpha beta false (b ++ [x]) ≤ max alpha (w x)) :
    ∀ (ms : List Move) (alpha beta best : Score), alpha < beta → best ≤ alpha →
      min beta (ms.foldl (fun a x => max a (w x)) best)
          ≤ abLoopMax childS b ms alpha beta best ∧
      abLoopMax childS b ms alpha beta best
          ≤ max alpha (ms.foldl (fun a x => max a (w x)) best) := by
  intro ms
  induction ms with
  | nil =>
    intro alpha beta best hab hba
    simp only [abLoopMax, List.foldl_nil]
    exact ⟨min_le_right _ _, le_max_right _ _⟩
  | cons x rest ih =>
    intro alpha beta best hab hba
    obtain ⟨hc1, hc2⟩ := Hc alpha beta x hab
    simp only [abLoopMax, List.foldl_cons]
    set c := childS alpha beta false (b ++ [x]) with hcdef
    by_cases h2 : beta ≤ max alpha (max best c)
    · rw [if_pos h2]
      have hbc : beta ≤ max best c := by
        rcases max_cases alpha (max best c) with ⟨heq, _⟩ | ⟨heq, _⟩
        · rw [heq] at h2; exact absurd h2 (not_le.mpr hab)
        · rw [heq] at h2; exact h2
      have hbestc : max best c = c := by
        rcases le_total c best with h | h
        · rw [max_eq_left h] at hbc
          exact absurd (le_trans hbc hba) (not_le.mpr hab)
        · exact max_eq_right h
      rw [hbestc]
      rw [hbestc] at hbc
      have hcw : c ≤ w x := by
        rcases le_max_iff.mp hc2 with h | h
        · exact absurd (le_trans hbc h) (not_le.mpr hab)
        · exact h
      have hFge : max best (w x) ≤ rest.foldl (fun a x => max a (w x)) (max best (w x)) := by
        rw [foldl_max_init]; exact le_max_left _ _
      constructor
      · exact le_trans (min_le_left _ _) hbc
      · exact le_max_of_le_right
          (le_trans hcw (le_trans (le_max_right best (w x)) hFge))
    · rw [if_neg h2]
      have hab2 : max alpha (max best c) < beta := not_le.mp h2
      obtain ⟨ihl, ihu⟩ := ih (max alpha (max best c)) beta (max best c) hab2 (le_max_right _ _)
      rw [foldl_max_init w rest (max best c)] at ihl ihu
      rw [foldl_max_init w rest (max best (w x))]
      set S := rest.foldl (fun a x => max a (w x)) (⊥ : Score) with hSdef
      constructor
      · rcases le_total (w x) beta with hwb | hbw
        · have hwc : w x ≤ c := by rw [min_eq_right hwb] at hc1; exact hc1
          have hmono : max (max best (w x)) S ≤ max (max best c) S :=
            max_le (max_le (le_trans (le_max_left best c) (le_max_left _ S))
              (le_trans (le_trans hwc (le_max_right best c)) (le_max_left _ S)))
              (le_max_right _ _)
          exact le_trans (min_le_min_left beta hmono) ihl
        · have hbc2 : beta ≤ c := by rw [min_eq_left hbw] at hc1; exact hc1
          have hble : beta ≤ max (max best c) S :=
            le_trans hbc2 (le_trans (le_max_right best c) (le_max_left _ _))
          rw [min_eq_left hble] at ihl
          exact le_trans (min_le_left _ _) ihl
      · have hA : alpha ≤ max alpha (max (max best (w x)) S) := le_max_left _ _
        have hB : best ≤ max alpha (max (max best (w x)) S) :=
          le_trans (le_max_left best (w x)) (le_trans (le_max_left _ S) (le_max_right _ _))
        have hW : w x ≤ max alpha (max (max best (w x)) S) :=
          le_trans (le_max_right best (w x)) (le_trans (le_max_left _ S) (le_max_right _ _))
        have hS2 : S ≤ max alpha (max (max best (w x)) S) :=
          le_trans (le_max_right (max best (w x)) S) (le_max_right _ _)
        have hC : c ≤ max alpha (max (max best (w x)) S) := by
          rcases le_max_iff.mp hc2 with h | h
          · exact le_trans h hA
          · exact le_trans h hW
        exact le_trans ihu
          (max_le (max_le hA (max_le hB hC)) (max_le (max_le hB hC) hS2))

theorem abLoopMin_bounds (childS : Score → Score → Bool → Board → Score)
    (w : Move → Score) (b : Board)
    (Hc : ∀ (alpha beta : Score) (x : Move), alpha < beta →
      min beta (w x) ≤ childS alpha beta true (b ++ [x]) ∧
      childS alpha beta true (b ++ [x]) ≤ max alpha (w x)) :
    ∀ (ms : List Move) (alpha beta best : Score), alpha < beta → beta ≤ best →
      min beta (ms.foldl (fun a x => min a (w x)) best)
          ≤ abLoopMin childS b ms alpha beta best ∧
      abLoopMin childS b ms alpha beta best
          ≤ max alpha (ms.foldl (fun a x => min a (w x)) best) := by
  intro ms
  induction ms with
  | nil =>
    intro alpha beta best hab hbb
    simp only [abLoopMin, List.foldl_nil]
    exact ⟨min_le_right _ _, le_max_right _ _⟩
  | cons x rest ih =>
    intro alpha beta best hab hbb
    obtain ⟨hc1, hc2⟩ := Hc alpha beta x hab
    simp only [abLoopMin, List.foldl_cons]
    set c := childS alpha beta true (b ++ [x]) with hcdef
    by_cases h2 : min beta (min best c) ≤ alpha
    · rw [if_pos h2]
      have hac : min best c ≤ alpha := by
        rcases min_cases beta (min best c) with ⟨heq, _⟩ | ⟨heq, _⟩
        · rw [heq] at h2; exact absurd h2 (not_le.mpr hab)
        · rw [heq] at h2; exact h2
      have hbestc : min best c = c := by
        rcases le_total best c with h | h
        · rw [min_eq_left h] at hac
          exact absurd (le_trans hbb hac) (not_le.mpr hab)
        · exact min_eq_right h
      rw [hbestc]
      rw [hbestc] at hac
      have hwc : w x ≤ c := by
        rcases min_le_iff.mp hc1 with h | h
        · exact absurd (le_trans h hac) (not_le.mpr hab)
        · exact h
      have hFle : rest.foldl (fun a x => min a (w x)) (min best (w x)) ≤ min best (w x) := by
        rw [foldl_min_init]; exact min_le_left _ _
      constructor
      · exact min_le_of_right_le
          (le_trans hFle (le_trans (min_le_right best (w x)) hwc))
      · exact le_trans hac (le_max_left _ _)
    · rw [if_neg h2]
      have hab2 : alpha < min beta (min best c) := not_le.mp h2
      obtain ⟨ihl, ihu⟩ := ih alpha (min beta (min best c)) (min best c) hab2 (min_le_right _ _)
      rw [foldl_min_init w rest (min best c)] at ihl ihu
      rw [foldl_min_init w rest (min best (w x))]
      set S := rest.foldl (fun a x => min a (w x)) (⊤ : Score) with hSdef
      constructor
      · have hB : min beta (min (min best (w x)) S) ≤ best :=
          le_trans (min_le_right _ _) (le_trans (min_le_left _ S) (min_le_left best (w x)))
        have hW : min beta (min (min best (w x)) S) ≤ w x :=
          le_trans (min_le_right _ _) (le_trans (min_le_left _ S) (min_le_right best (w x)))
        have hS2 : min beta (min (min best (w x)) S) ≤ S :=
          le_trans (min_le_right _ _) (min_le_right (min best (w x)) S)
        have hBt : min beta (min (min best (w x)) S) ≤ beta := min_le_left _ _
        have hC : min beta (min (min best (w x)) S) ≤ c := by
          rcases min_le_iff.mp hc1 with h | h
          · exact le_trans hBt h
          · exact le_trans hW h
        refine le_trans (le_min ?_ ?_) ihl
        · exact le_min hBt (le_min hB hC)
        · exact le_min (le_min hB hC) hS2
      · rcases le_total beta (w x) with hbw | hwb
        · have hcw2 : c ≤ w x := by
            rcases le_max_iff.mp hc2 with h | h
            · have hbc3 : beta ≤ c := by rw [min_eq_left hbw] at hc1; exact hc1
              exact absurd (le_trans hbc3 h) (not_le.mpr hab)
            · exact h
          have hmono : min (min best c) S ≤ min (min best (w x)) S :=
            le_min (le_min (le_trans (min_le_left _ S) (min_le_left best c))
              (le_trans (min_le_left _ S) (le_trans (min_le_right best c) hcw2)))
              (min_le_right _ _)
          exact le_trans ihu (max_le (le_max_left _ _) (le_max_of_le_right hmono))
        · rcases le_max_iff.mp hc2 with h | h
          · have hXa : min (min best c) S ≤ alpha :=
              le_trans (le_trans (min_le_left _ S) (min_le_right best c)) h
            rw [max_eq_left hXa] at ihu
            exact le_trans ihu (le_max_left _ _)
          · have hcw2 : c ≤ w x := h
            have hmono : min (min best c) S ≤ min (min best (w x)) S :=
              le_min (le_min (le_trans (min_le_left _ S) (min_le_left best c))
                (le_trans (min_le_left _ S) (le_trans (min_le_right best c) hcw2)))
                (min_le_right _ _)
            exact le_trans ihu (max_le (le_max_left _ _) (le_max_of_le_right hmono))

/-- The fail-soft sandwich: for any window `alpha < beta`, the pruned score is
between `min beta v` and `max alpha v` where `v` is the exhaustive value. -/
theorem abScore_bounds (g : Game) (e : Evaluator) :
    ∀ (d : Nat) (r : Bool) (b : Board) (alpha beta : Score), alpha < beta →
      min beta (exhaustiveScore g e d r b) ≤ abScore g e d alpha beta r b ∧
      abScore g e d alpha beta r b ≤ max alpha (exhaustiveScore g e d r b) := by
  intro d
  induction d with
  | zero =>
    intro r b alpha beta hab
    have h0 : abScore g e 0 alpha beta r b = exhaustiveScore g e 0 r b := by
      simp only [abScore, exhaustiveScore]
    rw [h0]
    exact ⟨min_le_right _ _, le_max_right _ _⟩
  | succ d ih =>
    intro r b alpha beta hab
    rcases r with _ | _
    · simp only [abScore, exhaustiveScore]
      exact abLoopMin_bounds (abScore g e d)
        (fun x => exhaustiveScore g e d true (b ++ [x])) b
        (fun alpha beta x h => ih true (b ++ [x]) alpha beta h)
        (g.moves b) alpha beta (⊤ : Score) hab le_top
    · simp only [abScore, exhaustiveScore]
      exact abLoopMax_bounds (abScore g e d)
        (fun x => exhaustiveScore g e d false (b ++ [x])) b
        (fun alpha beta x h => ih false (b ++ [x]) alpha beta h)
        (g.moves b) alpha beta (⊥ : Score) hab bot_le

/-- With the full window the pruned score is exactly the exhaustive value. -/
theorem abScore_full (g : Game) (e : Evaluator) (d : Nat) (r : Bool) (b : Board) :
    abScore g e d (⊥ : Score) (⊤ : Score) r b = exhaustiveScore g e d r b := by
  obtain ⟨h1, h2⟩ := abScore_bounds g e d r b (⊥ : Score) (⊤ : Score) bot_lt_top
  rw [min_eq_right le_top] at h1
  rw [max_eq_right bot_le] at h2
  exact le_antisymm h2 h1

/-! ### Tie-breaking and move membership -/

theorem loopMax_ties
    (child : Score → Score → Bool → Board → Option (Score × MVal) × Board)
    (Hr : ∀ alpha beta r b, (child alpha beta r b).2 = b)
    (Hs : ∀ alpha beta r b, b ≠ [] → (child alpha beta r b).1.isSome)
    (s : Score) (b : Board) (hst : s ≠ (⊤ : Score)) :
    ∀ (ms : List Move) (m0 : Move),
      (∀ y ∈ ms, ((child s (⊤ : Score) false (b ++ [y])).1).map Prod.fst = some s) →
      loopMax child ms s (⊤ : Score) s (MVal.mv m0) b
        = (some (s, MVal.mv (ms.getLastD m0)), b) := by
  intro ms
  induction ms with
  | nil => intro m0 _; simp [loopMax]
  | cons y tl ih =>
    intro m0 hsc
    obtain ⟨cpair, hp⟩ := Option.isSome_iff_exists.mp (Hs s (⊤ : Score) false (b ++ [y]) (by simp))
    have hcall : child s (⊤ : Score) false (b ++ [y]) = (some cpair, b ++ [y]) := by
      rw [Prod.ext_iff]; exact ⟨hp, Hr s (⊤ : Score) false (b ++ [y])⟩
    have hps : cpair.1 = s := by
      have := hsc y (by simp)
      rw [hp] at this
      simpa using this
    have hlast : (b ++ [y]).getLast? = some y := List.getLast?_concat _
    have hdrop : (b ++ [y]).dropLast = b := List.dropLast_concat
    have hcond : cpair.1 = max s cpair.1 := by rw [hps, max_self]
    have hncut : ¬((⊤ : Score) ≤ max s (max s cpair.1)) := by
      rw [hps, max_self, max_self]
      exact fun h => hst (top_le_iff.mp h)
    simp only [loopMax, hcall, hlast, hdrop, if_pos hcond, if_neg hncut]
    rw [hps, max_self, max_self, ih y (fun z hz => hsc z (by simp [hz]))]
    have hgl : (y :: tl).getLastD m0 = tl.getLastD y := by
      cases tl <;> simp [List.getLastD]
    rw [hgl]

theorem loopMin_ties
    (child : Score → Score → Bool → Board → Option (Score × MVal) × Board)
    (Hr : ∀ alpha beta r b, (child alpha beta r b).2 = b)
    (Hs : ∀ alpha beta r b, b ≠ [] → (child alpha beta r b).1.isSome)
    (s : Score) (b : Board) (hsb : s ≠ (⊥ : Score)) :
    ∀ (ms : List Move) (m0 : Move),
      (∀ y ∈ ms, ((child (⊥ : Score) s true (b ++ [y])).1).map Prod.fst = some s) →
      loopMin child ms (⊥ : Score) s s (MVal.mv m0) b
        = (some (s, MVal.mv (ms.getLastD m0)), b) := by
  intro ms
  induction ms with
  | nil => intro m0 _; simp [loopMin]
  | cons y tl ih =>
    intro m0 hsc
    obtain ⟨cpair, hp⟩ := Option.isSome_iff_exists.mp (Hs (⊥ : Score) s true (b ++ [y]) (by simp))
    have hcall : child (⊥ : Score) s true (b ++ [y]) = (some cpair, b ++ [y]) := by
      rw [Prod.ext_iff]; exact ⟨hp, Hr (⊥ : Score) s true (b ++ [y])⟩
    have hps : cpair.1 = s := by
      have := hsc y (by simp)
      rw [hp] at this
      simpa using this
    have hlast : (b ++ [y]).getLast? = some y := List.getLast?_concat _
    have hdrop : (b ++ [y]).dropLast = b := List.dropLast_concat
    have hcond : cpair.1 = min s cpair.1 := by rw [hps, min_self]
    have hncut : ¬(min s (min s cpair.1) ≤ (⊥ : Score)) := by
      rw [hps, min_self, min_self]
      exact fun h => hsb (le_bot_iff.mp h)
    simp only [loopMin, hcall, hlast, hdrop, if_pos hcond, if_neg hncut]
    rw [hps, min_self, min_self, ih y (fun z hz => hsc z (by simp [hz]))]
    have hgl : (y :: tl).getLastD m0 = tl.getLastD y := by
      cases tl <;> simp [List.getLastD]
    rw [hgl]

theorem loopMax_mem
    (child : Score → Score → Bool → Board → Option (Score × MVal) × Board)
    (Hr : ∀ alpha beta r b, (child alpha beta r b).2 = b)
    (Hs : ∀ alpha beta r b, b ≠ [] → (child alpha beta r b).1.isSome)
    (S : List Move) :
    ∀ (ms : List Move) (alpha beta best : Score) (m0 : Move) (b : Board),
      m0 ∈ S → (∀ y ∈ ms, y ∈ S) →
      ∃ (s : Score) (m : Move),
        (loopMax child ms alpha beta best (MVal.mv m0) b).1 = some (s, MVal.mv m) ∧ m ∈ S := by
  intro ms
  induction ms with
  | nil =>
    intro alpha beta best m0 b hm0 _
    exact ⟨best, m0, by simp [loopMax], hm0⟩
  | cons y tl ih =>
    intro alpha beta best m0 b hm0 hsub
    obtain ⟨cpair, hp⟩ := Option.isSome_iff_exists.mp (Hs alpha beta false (b ++ [y]) (by simp))
    have hcall : child alpha beta false (b ++ [y]) = (some cpair, b ++ [y]) := by
      rw [Prod.ext_iff]; exact ⟨hp, Hr alpha beta false (b ++ [y])⟩
    have hlast : (b ++ [y]).getLast? = some y := List.getLast?_concat _
    have hdrop : (b ++ [y]).dropLast = b := List.dropLast_concat
    simp only [loopMax, hcall, hlast, hdrop]
    by_cases h1 : cpair.1 = max best cpair.1
    · rw [if_pos h1]
      by_cases h2 : beta ≤ max alpha (max best cpair.1)
      · exact ⟨max best cpair.1, y, by rw [if_pos h2], hsub y (by simp)⟩
      · rw [if_neg h2]
        exact ih _ _ _ y b (hsub y (by simp)) (fun z hz => hsub z (by simp [hz]))
    · rw [if_neg h1]
      by_cases h2 : beta ≤ max alpha (max best cpair.1)
      · exact ⟨max best cpair.1, m0, by rw [if_pos h2], hm0⟩
      · rw [if_neg h2]
        exact ih _ _ _ m0 b hm0 (fun z hz => hsub z (by simp [hz]))

theorem loopMin_mem
    (child : Score → Score → Bool → Board → Option (Score × MVal) × Board)
    (Hr : ∀ alpha beta r b, (child alpha beta r b).2 = b)
    (Hs : ∀ alpha beta r b, b ≠ [] → (child alpha beta r b).1.isSome)
    (S : List Move) :
    ∀ (ms : List Move) (alpha beta best : Score) (m0 : Move) (b : Board),
      m0 ∈ S → (∀ y ∈ ms, y ∈ S) →
      ∃ (s : Score) (m : Move),
        (loopMin child ms alpha beta best (MVal.mv m0) b).1 = some (s, MVal.mv m) ∧ m ∈ S := by
  intro ms
  induction ms with
  | nil =>
    intro alpha beta best m0 b hm0 _
    exact ⟨best, m0, by simp [loopMin], hm0⟩
  | cons y tl ih =>
    intro alpha beta best m0 b hm0 hsub
    obtain ⟨cpair, hp⟩ := Option.isSome_iff_exists.mp (Hs alpha beta true (b ++ [y]) (by simp))
    have hcall : child alpha beta true (b ++ [y]) = (some cpair, b ++ [y]) := by
      rw [Prod.ext_iff]; exact ⟨hp, Hr alpha beta true (b ++ [y])⟩
    have hlast : (b ++ [y]).getLast? = some y := List.getLast?_concat _
    have hdrop : (b ++ [y]).dropLast = b := List.dropLast_concat
    simp only [loopMin, hcall, hlast, hdrop]
    by_cases h1 : cpair.1 = min best cpair.1
    · rw [if_pos h1]
      by_cases h2 : min beta (min best cpair.1) ≤ alpha
      · exact ⟨min best cpair.1, y, by rw [if_pos h2], hsub y (by simp)⟩
      · rw [if_neg h2]
        exact ih _ _ _ y b (hsub y (by simp)) (fun z hz => hsub z (by simp [hz]))
    · rw [if_neg h1]
      by_cases h2 : min beta (min best cpair.1) ≤ alpha
      · exact ⟨min best cpair.1, m0, by rw [if_pos h2], hm0⟩
      · rw [if_neg h2]
        exact ih _ _ _ m0 b hm0 (fun z hz => hsub z (by simp [hz]))

/-! ### Concrete games for witnesses and counterexamples -/

/-- A never-ending game: two root moves, no moves afterwards, every position
reported as ongoing. -/
def gPlain : Game :=
  { moves := fun b => if b = [] then [1, 2] else []
    result := fun _ => GameResult.ongoing
    turn := fun _ => true
    gameOver := fun _ => false }

/-- Evaluator counting the moves played. -/
def eLen : Evaluator := fun b => (b.length : Int)

/-- A game whose every position is recorded as won by White. -/
def gWhite : Game :=
  { moves := fun _ => []
    result := fun _ => GameResult.whiteWins
    turn := fun _ => true
    gameOver := fun _ => true }

/-- A game whose every position is recorded as won by Black. -/
def gBlack : Game :=
  { moves := fun _ => []
    result := fun _ => GameResult.blackWins
    turn := fun _ => true
    gameOver := fun _ => true }

/-! ### Claim theorems -/

/-- C1: Alpha-beta equivalence: for any position, any depth and every move
ordering (any `Game` oracle), whenever `minimax` run with initial bounds
`alpha = -inf`, `beta = +inf` returns a score, that score equals the value of
the exhaustive minimax without pruning — pruning changes only which nodes are
visited, never the returned value. -/
theorem c1_alpha_beta_equivalence (g : Game) (e : Evaluator) (d : Nat) (r : Bool)
    (b : Board) (pair : Score × MVal)
    (h : (minimax g e d (⊥ : Score) (⊤ : Score) r b).1 = some pair) :
    pair.1 = exhaustiveScore g e d r b := by
  rw [minimax_score g e d (⊥ : Score) (⊤ : Score) r b pair h]
  exact abScore_full g e d r b

/-- C1 witness: the equivalence applied to a concrete two-move game at
depth 1. -/
theorem c1_alpha_beta_equivalence_witness :
    (minimax gPlain eLen 1 (⊥ : Score) (⊤ : Score) true []).1
      = some (Score.ofInt (-1), MVal.mv 2) ∧
    (Score.ofInt (-1), MVal.mv 2).1 = exhaustiveScore gPlain eLen 1 true [] :=
  ⟨by decide, c1_alpha_beta_equivalence gPlain eLen 1 true [] _ (by decide)⟩

/-- C2: code bug at line 30 of `baby_driver.py`: in the depth-0 base case, the
branch for a game won by the minimizing side returns the *uncalled* bound
method `board.peek` rather than the Move value of the last move played, so the
two terminal branches do not return the same kind of object. -/
theorem c2_terminal_branch_bug :
    (minimax gBlack eLen 0 (⊥ : Score) (⊤ : Score) true [5]).1
      = some ((⊥ : Score), MVal.peekBound) ∧
    ∀ m : Move, MVal.peekBound ≠ MVal.mv m :=
  ⟨by decide, fun _ h => MVal.noConfusion h⟩

/-- C3: Mutate/undo idempotence: after every call to `minimax` (any depth,
bounds, role, evaluator, and game oracle) the board state equals the state
before the call: every applied move is undone on every exit path, including
the early-return alpha-beta pruning path. -/
theorem c3_mutate_undo_idempotence (g : Game) (e : Evaluator) (d : Nat)
    (alpha beta : Score) (r : Bool) (b : Board) :
    (minimax g e d alpha beta r b).2 = b :=
  minimax_restore g e d alpha beta r b

/-- C4: Depth-0 symmetry: at depth 0 on a non-terminal or drawn position with
at least one move on the stack, `minimax` returns `(-e(board), last move)` for
every evaluator, bounds and role — the evaluator score is negated exactly
once. -/
theorem c4_depth0_symmetry (g : Game) (e : Evaluator) (alpha beta : Score)
    (r : Bool) (b : Board) (m : Move)
    (hres : g.result b = GameResult.draw ∨ g.result b = GameResult.ongoing)
    (hm : b.getLast? = some m) :
    minimax g e 0 alpha beta r b = (some (Score.ofInt (-(e b)), MVal.mv m), b) := by
  rcases hres with h | h <;> simp [minimax, h, hm]

/-- C4 witness: depth 0 on the concrete ongoing position `[3]`. -/
theorem c4_depth0_symmetry_witness :
    (gPlain.result [3] = GameResult.draw ∨ gPlain.result [3] = GameResult.ongoing) ∧
    minimax gPlain eLen 0 (⊥ : Score) (⊤ : Score) true [3]
      = (some (Score.ofInt (-(eLen [3])), MVal.mv 3), [3]) :=
  ⟨Or.inr rfl,
   c4_depth0_symmetry gPlain eLen (⊥ : Score) (⊤ : Score) true [3] 3 (Or.inr rfl) rfl⟩

/-- C5 counterexample: a position whose result is a win for the maximizing
side at depth 0 but whose move stack is empty: `board.peek()` raises
`IndexError` (modelled `none`), so no score at all is returned — refuting
"returns score `+inf` for every such position". -/
theorem c5_counterexample :
    gWhite.result [] = GameResult.whiteWins ∧
    (minimax gWhite eLen 0 (⊥ : Score) (⊤ : Score) true []).1 = none :=
  ⟨rfl, by decide⟩

/-- C5 (amended): at depth 0 a completed game won by the maximizing side
returns score `+inf` for every evaluator, bounds and role, provided at least
one move has been played; a completed game won by the minimizing side returns
score `-inf` unconditionally (with the bound-method move component). -/
theorem c5_terminal_short_circuit (g : Game) (e : Evaluator) (alpha beta : Score)
    (r : Bool) (b : Board) :
    (g.result b = GameResult.whiteWins → ∀ m : Move, b.getLast? = some m →
      (minimax g e 0 alpha beta r b).1 = some ((⊤ : Score), MVal.mv m)) ∧
    (g.result b = GameResult.blackWins →
      (minimax g e 0 alpha beta r b).1 = some ((⊥ : Score), MVal.peekBound)) := by
  constructor
  · intro h m hm
    simp [minimax, h, hm]
  · intro h
    simp [minimax, h]

/-- C5 witness: the amended terminal short-circuit at the concrete won
position `[7]`, with a minimizing role, showing role-independence. -/
theorem c5_terminal_short_circuit_witness :
    gWhite.result [7] = GameResult.whiteWins ∧
    (minimax gWhite eLen 0 (⊥ : Score) (⊤ : Score) false [7]).1
      = some ((⊤ : Score), MVal.mv 7) :=
  ⟨rfl,
   (c5_terminal_short_circuit gWhite eLen (⊥ : Score) (⊤ : Score) false [7]).1 rfl 7 rfl⟩

/-- C6: Tie-break semantics: at depth > 0 under a fixed move order, when the
candidate moves tie for the best score, the returned best move is the last
tied move in iteration order, not the first (in both the maximizing and the
minimizing branch) — a consequence of comparing the child score with `==`
against the running max/min. -/
theorem c6_tie_break_last (g : Game) (e : Evaluator) (d : Nat) (b : Board)
    (x : Move) (rest : List Move) (s : Score) (hm : g.moves b = x :: rest) :
    (((minimax g e d (⊥ : Score) (⊤ : Score) false (b ++ [x])).1).map Prod.fst = some s →
     (∀ y ∈ rest,
       ((minimax g e d s (⊤ : Score) false (b ++ [y])).1).map Prod.fst = some s) →
     s ≠ (⊤ : Score) →
     (minimax g e (d + 1) (⊥ : Score) (⊤ : Score) true b).1
        = some (s, MVal.mv (rest.getLastD x))) ∧
    (((minimax g e d (⊥ : Score) (⊤ : Score) true (b ++ [x])).1).map Prod.fst = some s →
     (∀ y ∈ rest,
       ((minimax g e d (⊥ : Score) s true (b ++ [y])).1).map Prod.fst = some s) →
     s ≠ (⊥ : Score) →
     (minimax g e (d + 1) (⊥ : Score) (⊤ : Score) false b).1
        = some (s, MVal.mv (rest.getLastD x))) := by
  have Hr : ∀ alpha beta r b0, ((minimax g e d) alpha beta r b0).2 = b0 :=
    fun alpha beta r b0 => minimax_restore g e d alpha beta r b0
  have Hs : ∀ alpha beta r b0, b0 ≠ [] → ((minimax g e d) alpha beta r b0).1.isSome :=
    fun alpha beta r b0 hb => minimax_isSome g e d alpha beta r b0 (Or.inr hb)
  constructor
  · intro h1 h2 h3
    obtain ⟨cpair, hp, hps⟩ := Option.map_eq_some'.mp h1
    have hcall : minimax g e d (⊥ : Score) (⊤ : Score) false (b ++ [x])
        = (some cpair, b ++ [x]) := by
      rw [Prod.ext_iff]; exact ⟨hp, Hr _ _ _ _⟩
    have hlast : (b ++ [x]).getLast? = some x := List.getLast?_concat _
    have hdrop : (b ++ [x]).dropLast = b := List.dropLast_concat
    have hcond : cpair.1 = max (⊥ : Score) cpair.1 := (max_eq_right bot_le).symm
    have hncut : ¬((⊤ : Score) ≤ max (⊥ : Score) (max (⊥ : Score) cpair.1)) := by
      rw [max_eq_right bot_le, max_eq_right bot_le, hps]
      exact fun hh => h3 (top_le_iff.mp hh)
    rw [minimax_succ_true, hm]
    simp only [loopMax, hcall, hlast, hdrop, if_pos hcond, if_neg hncut]
    rw [hps, show max (⊥ : Score) s = s from max_eq_right bot_le,
      show max (⊥ : Score) s = s from max_eq_right bot_le,
      loopMax_ties (minimax g e d) Hr Hs s b h3 rest x h2]
  · intro h1 h2 h3
    obtain ⟨cpair, hp, hps⟩ := Option.map_eq_some'.mp h1
    have hcall : minimax g e d (⊥ : Score) (⊤ : Score) true (b ++ [x])
        = (some cpair, b ++ [x]) := by
      rw [Prod.ext_iff]; exact ⟨hp, Hr _ _ _ _⟩
    have hlast : (b ++ [x]).getLast? = some x := List.getLast?_concat _
    have hdrop : (b ++ [x]).dropLast = b := List.dropLast_concat
    have hcond : cpair.1 = min (⊤ : Score) cpair.1 := (min_eq_right le_top).symm
    have hncut : ¬(min (⊤ : Score) (min (⊤ : Score) cpair.1) ≤ (⊥ : Score)) := by
      rw [min_eq_right le_top, min_eq_right le_top, hps]
      exact fun hh => h3 (le_bot_iff.mp hh)
    rw [minimax_succ_false, hm]
    simp only [loopMin, hcall, hlast, hdrop, if_pos hcond, if_neg hncut]
    rw [hps, show min (⊤ : Score) s = s from min_eq_right le_top,
      show min (⊤ : Score) s = s from min_eq_right le_top,
      loopMin_ties (minimax g e d) Hr Hs s b h3 rest x h2]

/-- C6 witness: at depth 1 on the two-move game both moves score equally and
the second (last) move is returned. -/
theorem c6_tie_break_last_witness :
    gPlain.moves [] = [1, 2] ∧
    (minimax gPlain eLen 1 (⊥ : Score) (⊤ : Score) true []).1
      = some (Score.ofInt (-1), MVal.mv 2) := by
  refine ⟨by decide, ?_⟩
  have h := (c6_tie_break_last gPlain eLen 0 [] 1 [2] (Score.ofInt (-1))
    (by decide)).1 (by decide) (by decide) (by decide)
  simpa using h

/-- C7: Empty move list at depth > 0: with no legal moves, `minimax` returns
the unchanged initial sentinel — score `-inf` with move `None` when
maximizing, score `+inf` with move `None` when minimizing — and the board is
not mutated. -/
theorem c7_empty_moves (g : Game) (e : Evaluator) (d : Nat) (alpha beta : Score)
    (b : Board) (hm : g.moves b = []) :
    minimax g e (d + 1) alpha beta true b = (some ((⊥ : Score), MVal.pynone), b) ∧
    minimax g e (d + 1) alpha beta false b = (some ((⊤ : Score), MVal.pynone), b) := by
  constructor <;> simp [minimax, hm, loopMax, loopMin]

/-- C7 witness: a position of the concrete game with no legal moves, at
depth 3. -/
theorem c7_empty_moves_witness :
    gPlain.moves [9] = [] ∧
    minimax gPlain eLen 3 (⊥ : Score) (⊤ : Score) true [9]
      = (some ((⊥ : Score), MVal.pynone), [9]) :=
  ⟨by decide, (c7_empty_moves gPlain eLen 2 (⊥ : Score) (⊤ : Score) [9] (by decide)).1⟩

/-- C8: Root seeding asymmetry: in every `play_game` loop iteration on a
non-over position, White's turn invokes the search with role Maximizing and
root bounds `(alpha, beta) = (+inf, -inf)`, Black's turn with role Minimizing
and `(-inf, +inf)`, and the returned move is then pushed onto the shared
board. -/
theorem c8_root_seeding (g : Game) (we : Evaluator) (wd : Nat) (be : Evaluator)
    (bd : Nat) (n : Nat) (b : Board) (s : Score) (m : Move)
    (hover : g.gameOver b = false) :
    (g.turn b = true →
      (minimax g we wd (⊤ : Score) (⊥ : Score) true b).1 = some (s, MVal.mv m) →
      play_game_loop g we wd be bd (n + 1) b
        = play_game_loop g we wd be bd n (b ++ [m])) ∧
    (g.turn b = false →
      (minimax g be bd (⊥ : Score) (⊤ : Score) false b).1 = some (s, MVal.mv m) →
      play_game_loop g we wd be bd (n + 1) b
        = play_game_loop g we wd be bd n (b ++ [m])) := by
  constructor
  · intro ht hmin
    have hcall : minimax g we wd (⊤ : Score) (⊥ : Score) true b = (some (s, MVal.mv m), b) := by
      rw [Prod.ext_iff]; exact ⟨hmin, minimax_restore g we wd _ _ _ _⟩
    simp [play_game_loop, hover, play_turn, ht, hcall]
  · intro ht hmin
    have hcall : minimax g be bd (⊥ : Score) (⊤ : Score) false b = (some (s, MVal.mv m), b) := by
      rw [Prod.ext_iff]; exact ⟨hmin, minimax_restore g be bd _ _ _ _⟩
    simp [play_game_loop, hover, play_turn, ht, hcall]

/-- C8 witness: one White step of the loop on the concrete game. -/
theorem c8_root_seeding_witness :
    gPlain.gameOver [] = false ∧ gPlain.turn [] = true ∧
    (minimax gPlain eLen 1 (⊤ : Score) (⊥ : Score) true []).1
      = some (Score.ofInt (-1), MVal.mv 1) ∧
    play_game_loop gPlain eLen 1 eLen 1 1 [] = play_game_loop gPlain eLen 1 eLen 1 0 [1] :=
  ⟨rfl, rfl, by decide,
   (c8_root_seeding gPlain eLen 1 eLen 1 0 [] (Score.ofInt (-1)) 1 rfl).1 rfl (by decide)⟩

/-- C9: Move invariant: at depth > 0 on a position with at least one legal
move, the returned move component is an actual move (never `None`) and is one
of the position's legal moves. -/
theorem c9_move_invariant (g : Game) (e : Evaluator) (d : Nat) (alpha beta : Score)
    (r : Bool) (b : Board) (hne : g.moves b ≠ []) :
    ∃ (s : Score) (m : Move),
      (minimax g e (d + 1) alpha beta r b).1 = some (s, MVal.mv m) ∧ m ∈ g.moves b := by
  have Hr : ∀ alpha beta r b0, ((minimax g e d) alpha beta r b0).2 = b0 :=
    fun alpha beta r b0 => minimax_restore g e d alpha beta r b0
  have Hs : ∀ alpha beta r b0, b0 ≠ [] → ((minimax g e d) alpha beta r b0).1.isSome :=
    fun alpha beta r b0 hb => minimax_isSome g e d alpha beta r b0 (Or.inr hb)
  rcases hm : g.moves b with _ | ⟨x, rest⟩
  · exact absurd hm hne
  rcases r with _ | _
  · obtain ⟨cpair, hp⟩ := Option.isSome_iff_exists.mp (Hs alpha beta true (b ++ [x]) (by simp))
    have hcall : minimax g e d alpha beta true (b ++ [x]) = (some cpair, b ++ [x]) := by
      rw [Prod.ext_iff]; exact ⟨hp, Hr _ _ _ _⟩
    have hlast : (b ++ [x]).getLast? = some x := List.getLast?_concat _
    have hdrop : (b ++ [x]).dropLast = b := List.dropLast_concat
    have hcond : cpair.1 = min (⊤ : Score) cpair.1 := (min_eq_right le_top).symm
    rw [minimax_succ_false, hm]
    simp only [loopMin, hcall, hlast, hdrop, if_pos hcond]
    by_cases h2 : min beta (min (⊤ : Score) cpair.1) ≤ alpha
    · exact ⟨min (⊤ : Score) cpair.1, x, by rw [if_pos h2], by simp⟩
    · rw [if_neg h2]
      have := loopMin_mem (minimax g e d) Hr Hs (g.moves b) rest alpha
        (min beta (min (⊤ : Score) cpair.1)) (min (⊤ : Score) cpair.1) x b
        (by rw [hm]; simp) (fun y hy => by rw [hm]; simp [hy])
      obtain ⟨s, m, hsm, hmem⟩ := this
      exact ⟨s, m, hsm, hm ▸ hmem⟩
  · obtain ⟨cpair, hp⟩ := Option.isSome_iff_exists.mp (Hs alpha beta false (b ++ [x]) (by simp))
    have hcall : minimax g e d alpha beta false (b ++ [x]) = (some cpair, b ++ [x]) := by
      rw [Prod.ext_iff]; exact ⟨hp, Hr _ _ _ _⟩
    have hlast : (b ++ [x]).getLast? = some x := List.getLast?_concat _
    have hdrop : (b ++ [x]).dropLast = b := List.dropLast_concat
    have hcond : cpair.1 = max (⊥ : Score) cpair.1 := (max_eq_right bot_le).symm
    rw [minimax_succ_true, hm]
    simp only [loopMax, hcall, hlast, hdrop, if_pos hcond]
    by_cases h2 : beta ≤ max alpha (max (⊥ : Score) cpair.1)
    · exact ⟨max (⊥ : Score) cpair.1, x, by rw [if_pos h2], by simp⟩
    · rw [if_neg h2]
      have := loopMax_mem (minimax g e d) Hr Hs (g.moves b) rest
        (max alpha (max (⊥ : Score) cpair.1)) beta (max (⊥ : Score) cpair.1) x b
        (by rw [hm]; simp) (fun y hy => by rw [hm]; simp [hy])
      obtain ⟨s, m, hsm, hmem⟩ := this
      exact ⟨s, m, hsm, hm ▸ hmem⟩

/-- C9 witness: depth 1 on the concrete two-move game. -/
theorem c9_move_invariant_witness :
    gPlain.moves [] ≠ [] ∧
    ∃ (s : Score) (m : Move),
      (minimax gPlain eLen 1 (⊥ : Score) (⊤ : Score) true []).1 = some (s, MVal.mv m) ∧
      m ∈ gPlain.moves [] :=
  ⟨by decide, c9_move_invariant gPlain eLen 0 (⊥ : Score) (⊤ : Score) true [] (by decide)⟩

/-- C10: with initial bounds `beta <= alpha` and a non-empty move list at
depth > 0, the alpha-beta cutoff fires after the very first candidate move:
`minimax` returns that child's score with the first move in order as the best
move, examining no further moves and passing the same inverted bounds to the
child — so White's root searches in `play_game` (seeded `alpha = +inf`,
`beta = -inf`) explore exactly one move per node at every level. -/
theorem c10_inverted_bounds_prune (g : Game) (e : Evaluator) (d : Nat)
    (alpha beta : Score) (r : Bool) (b : Board) (x : Move) (rest : List Move)
    (hba : beta ≤ alpha) (hm : g.moves b = x :: rest) :
    minimax g e (d + 1) alpha beta r b
      = (((minimax g e d alpha beta (!r) (b ++ [x])).1).map (fun p => (p.1, MVal.mv x)),
         b) := by
  have Hr : ∀ alpha beta r b0, ((minimax g e d) alpha beta r b0).2 = b0 :=
    fun alpha beta r b0 => minimax_restore g e d alpha beta r b0
  have Hs : ∀ alpha beta r b0, b0 ≠ [] → ((minimax g e d) alpha beta r b0).1.isSome :=
    fun alpha beta r b0 hb => minimax_isSome g e d alpha beta r b0 (Or.inr hb)
  rcases r with _ | _
  · obtain ⟨cpair, hp⟩ := Option.isSome_iff_exists.mp (Hs alpha beta true (b ++ [x]) (by simp))
    have hcall : minimax g e d alpha beta true (b ++ [x]) = (some cpair, b ++ [x]) := by
      rw [Prod.ext_iff]; exact ⟨hp, Hr _ _ _ _⟩
    have hlast : (b ++ [x]).getLast? = some x := List.getLast?_concat _
    have hdrop : (b ++ [x]).dropLast = b := List.dropLast_concat
    have hcond : cpair.1 = min (⊤ : Score) cpair.1 := (min_eq_right le_top).symm
    have h2 : min beta (min (⊤ : Score) cpair.1) ≤ alpha :=
      le_trans (min_le_left _ _) hba
    rw [minimax_succ_false, hm]
    simp only [loopMin, hcall, hlast, hdrop, if_pos hcond, if_pos h2, Bool.not_false]
    rw [min_eq_right le_top]
    simp
  · obtain ⟨cpair, hp⟩ := Option.isSome_iff_exists.mp (Hs alpha beta false (b ++ [x]) (by simp))
    have hcall : minimax g e d alpha beta false (b ++ [x]) = (some cpair, b ++ [x]) := by
      rw [Prod.ext_iff]; exact ⟨hp, Hr _ _ _ _⟩
    have hlast : (b ++ [x]).getLast? = some x := List.getLast?_concat _
    have hdrop : (b ++ [x]).dropLast = b := List.dropLast_concat
    have hcond : cpair.1 = max (⊥ : Score) cpair.1 := (max_eq_right bot_le).symm
    have h2 : beta ≤ max alpha (max (⊥ : Score) cpair.1) :=
      le_trans hba (le_max_left _ _)
    rw [minimax_succ_true, hm]
    simp only [loopMax, hcall, hlast, hdrop, if_pos hcond, if_pos h2, Bool.not_true]
    rw [max_eq_right bot_le]
    simp

/-- C10 witness: White's root seeding `(+inf, -inf)` on the concrete
two-move game returns the first move with the first child's score. -/
theorem c10_inverted_bounds_prune_witness :
    ((⊥ : Score) ≤ (⊤ : Score)) ∧ gPlain.moves [] = [1, 2] ∧
    minimax gPlain eLen 1 (⊤ : Score) (⊥ : Score) true []
      = (((minimax gPlain eLen 0 (⊤ : Score) (⊥ : Score) false ([] ++ [1])).1).map
          (fun p => (p.1, MVal.mv 1)), []) :=
  ⟨bot_le, by decide,
   c10_inverted_bounds_prune gPlain eLen 0 (⊤ : Score) (⊥ : Score) true [] 1 [2]
     bot_le (by decide)⟩

end BabyDriver
